import Mathlib

/-!
Shallow embedding of the echemdb-converters core pipeline
(src/echemdbconverters: csvloader.py, eclabloader.py, ecconverter.py,
converter.py, eclabconverter.py) and proofs about the claims of its
specification.  Python dictionaries keep insertion order, so ordered
association lists model them; Python exceptions are modelled by the
`PyErr` inductive and `Except`.
-/

deriving instance DecidableEq for Except

namespace Echemdb

/-- The error kinds the embedded code can signal.  `keyErrorAxis d` is the
`KeyError` raised by `ECConverter._validate_core_dimensions` for a missing
axis `d`; `indexError` is Python's `IndexError` (e.g. `matches[0]` on an
empty list); `valueError` is `int()` applied to a non-integer string;
`notImplementedError` is `CSVloader.decimal`.  `parseError` is the
structured parse-failure kind named by the specification; the source never
raises it, it exists so theorems can compare the two. -/
inductive PyErr where
  | keyErrorAxis (dimension : String)
  | indexError
  | valueError
  | notImplementedError
  | parseError
deriving DecidableEq, Repr

/-- The `core_dimensions` dictionary of
`ECConverter._validate_core_dimensions` (ecconverter.py line 163), in
insertion order. -/
def core_dimensions : List (String × List String) :=
  [("time", ["t"]), ("voltage", ["E", "U"]), ("current", ["I", "j"])]

/-- One step per dictionary entry of the loop in
`ECConverter._validate_core_dimensions`: raise `KeyError` as soon as the
intersection of the alias set with the column names is empty. -/
def validateAux : List (String × List String) → List String → Except PyErr Bool
  | [], _ => Except.ok true
  | (key, item) :: rest, cols =>
      if item.filter (fun a => decide (a ∈ cols)) = [] then
        Except.error (PyErr.keyErrorAxis key)
      else validateAux rest cols

/-- `ECConverter._validate_core_dimensions` (ecconverter.py lines 147-168). -/
def validate_core_dimensions (cols : List String) : Except PyErr Bool :=
  validateAux core_dimensions cols

/-- The `valid_dimensions` dictionary of
`ECConverter.get_electrochemistry_dimensions` (ecconverter.py line 186). -/
def valid_dimensions : List (String × List String) := core_dimensions

/-- The nested loop of `ECConverter.get_electrochemistry_dimensions`:
append every alias present in the column names, dictionary order outer,
alias order inner. -/
def availableDimensions (cols : List String) : List String :=
  valid_dimensions.foldl
    (fun acc p =>
      p.2.foldl (fun acc2 item => if item ∈ cols then acc2 ++ [item] else acc2) acc)
    []

/-- `ECConverter.get_electrochemistry_dimensions` (ecconverter.py lines
170-195): validate the core dimensions, then collect all aliases present. -/
def get_electrochemistry_dimensions (cols : List String) :
    Except PyErr (List String) := do
  let _ ← validate_core_dimensions cols
  Except.ok (availableDimensions cols)

/-- The canonical alias order t, E, U, I, j (the flattening of
`valid_dimensions`). -/
def canonicalAliases : List String := ["t", "E", "U", "I", "j"]

/-- The specification's description of the validator, used to compare the
code against the spec's words: the first dimension in the fixed order whose
alias set misses the column names entirely. -/
def firstMissingDimension (cols : List String) : Option String :=
  (core_dimensions.find? (fun p => p.2.all (fun a => decide (a ∉ cols)))).map Prod.fst

/-- A frictionless field descriptor: a record with an optional `name` key
and the optional metadata keys appearing in this repository.  `name = none`
models a descriptor without a name key (`field['name']` raises
`KeyError`). -/
structure FieldDesc where
  name : Option String := none
  unit : Option String := none
  reference : Option String := none
  dimension : Option String := none
  description : Option String := none
  comment : Option String := none
deriving DecidableEq, Repr, Inhabited

/-- frictionless `Field.name`: the name key, defaulting to the empty
string for a descriptor without one. -/
def nameOrEmpty (f : FieldDesc) : String := f.name.getD ""

/-- `CSVloader.create_field` (csvloader.py lines 419-430). -/
def create_field (n : String) : FieldDesc :=
  { name := some n, comment := some ("Created by echemdb-converters.") }

/-- `CSVloader.create_fields` (csvloader.py lines 401-417). -/
def create_fields_base (cols : List String) : List FieldDesc :=
  cols.map create_field

/-- The `biologic_fields` registry of eclabloader.py (lines 74-119). -/
def biologic_fields : List FieldDesc :=
  [ { name := some ("mode") },
    { name := some ("ox/red") },
    { name := some ("error") },
    { name := some ("control changes") },
    { name := some ("counter inc.") },
    { name := some ("time/s"), unit := some ("s"), dimension := some ("t"),
      description := some ("relative time") },
    { name := some ("control/V"), unit := some ("V"), dimension := some ("E"),
      description := some ("control voltage") },
    { name := some ("Ewe/V"), unit := some ("V"), dimension := some ("E"),
      description := some ("working electrode potential") },
    { name := some ("<I>/mA"), unit := some ("mA"), dimension := some ("I"),
      description := some ("working electrode current") },
    { name := some ("cycle number"), description := some ("cycle number") },
    { name := some ("(Q-Qo)/C"), unit := some ("C") },
    { name := some ("I Range"), description := some ("current range") },
    { name := some ("P/W"), unit := some ("W"), dimension := some ("P"),
      description := some ("power") },
    { name := some ("Unnamed: 13") } ]

/-- The names carried by the registry entries. -/
def registryNames : List String := biologic_fields.filterMap FieldDesc.name

/-- `ECLabLoader.create_fields` (eclabloader.py lines 230-258): the nested
comprehension `[field for field in biologic_fields for name in column_names
if name == field["name"]]`, registry order outer, column order inner. -/
def create_fields_eclab (cols : List String) : List FieldDesc :=
  biologic_fields.foldl
    (fun acc f =>
      cols.foldl (fun acc2 n => if f.name = some n then acc2 ++ [f] else acc2) acc)
    []

/-- Python `list.remove(x)`: drop the first element equal to `x` (the only
call sites guarantee `x` is present, so the no-op on absence is
unreachable). -/
def pyRemoveFirstEq (x : FieldDesc) : List FieldDesc → List FieldDesc
  | [] => []
  | f :: fs => if f = x then fs else f :: pyRemoveFirstEq x fs

/-- The first loop of `CSVloader.fields` (csvloader.py lines 153-158):
`for field in schema.fields: ... schema.fields.remove(field)` for fields
without a name.  Removal during iteration is modelled exactly: the Python
iterator keeps an index `i` that advances after each yield, so the element
after a removed one is skipped.  The first argument counts the remaining
iterations (`l.length - i`, which the loop can never exceed since each
step raises `i` by one and never lengthens the list); when it reaches zero
the guard `i < l.length` is already false, so the two formulations
agree. -/
def dropNamelessAux : Nat → List FieldDesc → Nat → List FieldDesc
  | 0, l, _ => l
  | fuel + 1, l, i =>
      if h : i < l.length then
        if (l.get ⟨i, h⟩).name = none then
          dropNamelessAux fuel (pyRemoveFirstEq (l.get ⟨i, h⟩) l) (i + 1)
        else dropNamelessAux fuel l (i + 1)
      else l

/-- The first loop of `CSVloader.fields`, entered at index `i`. -/
def dropNamelessPy (l : List FieldDesc) (i : Nat) : List FieldDesc :=
  dropNamelessAux (l.length - i) l i

/-- frictionless `Schema.remove_field(name)`: remove the first field whose
name is `name` (found by `get_field`; at the call sites the name is always
present). -/
def removeFirstByName (n : String) : List FieldDesc → List FieldDesc
  | [] => []
  | f :: fs => if nameOrEmpty f = n then fs else f :: removeFirstByName n fs

/-- The second loop of `CSVloader.fields` (csvloader.py lines 160-163):
iterate over the snapshot `ns` of field names taken at loop entry and
remove every field whose name is not among the column names. -/
def removeObsolete (cols : List String) : List String → List FieldDesc → List FieldDesc
  | [], fs => fs
  | n :: ns, fs =>
      removeObsolete cols ns (if n ∈ cols then fs else removeFirstByName n fs)

/-- The third loop of `CSVloader.fields` (csvloader.py lines 165-169):
for every column name not among the current field names, append
`create_field name` (note: `self.create_field`, not a registry lookup). -/
def addMissing : List String → List FieldDesc → List FieldDesc
  | [], fs => fs
  | c :: cs, fs =>
      addMissing cs (if c ∈ fs.map nameOrEmpty then fs else fs ++ [create_field c])

/-- The loader variants modelled: the base `CSVloader` and the
`ECLabLoader`. -/
inductive LoaderKind where
  | base
  | eclab
deriving DecidableEq, Repr

/-- A loader after its file has been parsed by the external tabular engine
(pandas): the column names and rows of the dataframe, plus the constructor
arguments `fields` (user-supplied descriptors, `None` when absent).  The
raw text parsing of the EC-Lab loader is modelled separately (see
`eclabHeaderLinesE`). -/
structure Loader where
  kind : LoaderKind
  columnNames : List String
  rows : List (List String)
  userFields : Option (List FieldDesc)
deriving DecidableEq, Repr

/-- The `create_fields` dispatch: the base loader auto-generates one field
per column, the EC-Lab loader filters the biologic registry. -/
def loaderCreateFields (l : Loader) : List FieldDesc :=
  match l.kind with
  | LoaderKind.base => create_fields_base l.columnNames
  | LoaderKind.eclab => create_fields_eclab l.columnNames

/-- The user-supplied branch of `CSVloader.fields`: drop nameless
descriptors, remove descriptors whose name is not a column name, then
append auto-generated descriptors for uncovered columns. -/
def reconcileUserFields (cols : List String) (fs : List FieldDesc) : List FieldDesc :=
  let fs1 := dropNamelessPy fs 0
  let fs2 := removeObsolete cols (fs1.map nameOrEmpty) fs1
  addMissing cols fs2

/-- `CSVloader.fields` (csvloader.py lines 104-171): user-supplied fields
when given and non-empty (Python truthiness), otherwise `create_fields`. -/
def loaderFields (l : Loader) : List FieldDesc :=
  match l.userFields with
  | none => loaderCreateFields l
  | some [] => loaderCreateFields l
  | some fs => reconcileUserFields l.columnNames fs

/-- A pandas dataframe: ordered column labels and rows of values. -/
structure Df where
  columns : List String
  rows : List (List String)
deriving DecidableEq, Repr

/-- `CSVloader.df`: the parsed table. -/
def loaderDf (l : Loader) : Df :=
  { columns := l.columnNames, rows := l.rows }

/-- The column names of the loader's table. -/
def tableColumnNames (l : Loader) : List String := (loaderDf l).columns

/-- The descriptor names of the loader's schema
(`Schema(fields=self.fields).field_names`). -/
def schemaFieldNames (l : Loader) : List String :=
  (loaderFields l).map nameOrEmpty

/-- The effect of `removeObsolete` on the name list alone. -/
def eraseLoop (cols : List String) : List String → List String → List String
  | [], xs => xs
  | n :: ns, xs => eraseLoop cols ns (if n ∈ cols then xs else xs.erase n)

/-- The EC-Lab rename map `ECLabConverter.name_conversion`
(eclabconverter.py lines 48-55), in insertion order. -/
def eclab_name_conversion : List (String × String) :=
  [("time/s", "t"), ("Ewe/V", "E"), ("<I>/mA", "I")]

/-- Column lookup in a dataframe: index of the first column with the given
label. -/
def colIndex (cols : List String) (n : String) : Option Nat :=
  cols.findIdx? (fun c => decide (c = n))

/-- The value of column `n` in row `r` of dataframe `df`. -/
def colValue (df : Df) (r : List String) (n : String) : String :=
  match colIndex df.columns n with
  | none => ""
  | some i => r.getD i ""

/-- pandas `df[sel]`: the projection of a dataframe onto the listed
columns, in the listed order. -/
def selectColumns (df : Df) (sel : List String) : Df :=
  { columns := sel,
    rows := df.rows.map (fun r => sel.map (fun n => colValue df r n)) }

/-- `ECConverter.column_names` of converter.py (lines 140-146), the base
class the shipped `ECLabConverter` actually extends: the dimension
selector applied to the loader's raw column names; `name_conversion` is
never consulted. -/
def legacy_column_names (l : Loader) : Except PyErr (List String) :=
  get_electrochemistry_dimensions l.columnNames

/-- `ECConverter.df` of converter.py (lines 148-169):
`self.loader.df[self.get_electrochemistry_dimensions(self.column_names)]`. -/
def legacy_df (l : Loader) : Except PyErr Df := do
  let cns ← legacy_column_names l
  let dims ← get_electrochemistry_dimensions cns
  Except.ok (selectColumns (loaderDf l) dims)

/-- frictionless `Schema.get_field(name)`: the first field with the given
name (the call sites guarantee the name is present, so the default is
unreachable). -/
def getFieldVal (fs : List FieldDesc) (n : String) : FieldDesc :=
  (fs.find? (fun f => decide (nameOrEmpty f = n))).getD default

/-- Python `name in self.name_conversion` / `self.name_conversion[name]`
on the rename dictionary. -/
def lookupConv (conv : List (String × String)) (n : String) : Option String :=
  (conv.find? (fun p => decide (p.1 = n))).map Prod.snd

/-- `schema.get_field(name)["name"] = v`: rename the first field currently
named `n`. -/
def setNameFirst (n v : String) : List FieldDesc → List FieldDesc
  | [] => []
  | f :: fs =>
      if nameOrEmpty f = n then { f with name := some v } :: fs
      else f :: setNameFirst n v fs

/-- One iteration of the rename loop of `ECConverter._schema`
(ecconverter.py lines 230-236) for the snapshot entry `n`. -/
def renameStep (conv : List (String × String)) (fs : List FieldDesc)
    (n : String) : List FieldDesc :=
  match lookupConv conv n with
  | none => fs
  | some v => setNameFirst n v fs

/-- `ECConverter._schema` of ecconverter.py (lines 197-236): the loader's
schema with the rename loop applied over the snapshot of its field
names. -/
def ec_schema_fields_renamed (conv : List (String × String)) (l : Loader) :
    List FieldDesc :=
  ((loaderFields l).map nameOrEmpty).foldl (renameStep conv) (loaderFields l)

/-- `ECConverter.schema` of ecconverter.py (lines 238-268): project the
renamed schema onto the selected electrochemistry dimensions. -/
def ec_schema (conv : List (String × String)) (l : Loader) :
    Except PyErr (List FieldDesc) := do
  let dims ← get_electrochemistry_dimensions
    ((ec_schema_fields_renamed conv l).map nameOrEmpty)
  Except.ok (dims.map (fun n => getFieldVal (ec_schema_fields_renamed conv l) n))

/-- `ECConverter.column_names` of ecconverter.py (lines 270-288). -/
def ec_column_names (conv : List (String × String)) (l : Loader) :
    Except PyErr (List String) := do
  let fs ← ec_schema conv l
  Except.ok (fs.map nameOrEmpty)

/-- `ECConverter._df` of ecconverter.py (lines 290-310): a copy of the
loader's dataframe with its columns relabelled to the renamed field
names. -/
def ec_underscore_df (conv : List (String × String)) (l : Loader) : Df :=
  { columns := (ec_schema_fields_renamed conv l).map nameOrEmpty,
    rows := l.rows }

/-- `ECConverter.df` of ecconverter.py (lines 312-335):
`self._df[self.column_names]`. -/
def ec_df (conv : List (String × String)) (l : Loader) : Except PyErr Df := do
  let cns ← ec_column_names conv l
  Except.ok (selectColumns (ec_underscore_df conv l) cns)

/-- The Scenario D loader: the EC-Lab example file of eclabconverter.py,
already parsed (columns mode, time/s, Ewe/V, I, control/V). -/
def scenarioDLoader : Loader :=
  Loader.mk LoaderKind.eclab
    ["mode", "time/s", "Ewe/V", "<I>/mA", "control/V"]
    [["2", "0", "0.1", "0", "0"], ["2", "1", "1.4", "5", "1"]]
    none

/-- Python `readlines`: split into lines, each keeping its trailing
newline (the last line may lack one). -/
def readlinesAux : List Char → List Char → List (List Char)
  | [], [] => []
  | [], acc => [acc.reverse]
  | c :: rest, acc =>
      if c = '\n' then (acc.reverse ++ ['\n']) :: readlinesAux rest []
      else readlinesAux rest (c :: acc)

/-- Python `file.readlines()` on the cached file content. -/
def pyReadlines (s : String) : List String :=
  (readlinesAux s.toList []).map (fun cs => String.mk cs)

/-- The literal part of the header regex, lowercase. -/
def nbPattern : List Char := "nb header lines".toList

/-- Case-insensitive match of the lowercase literal `p` (letters and
spaces) at the head of the input; on success returns the rest.  An
uppercase input letter has a code 32 below its lowercase form. -/
def matchLiteralCI : List Char → List Char → Option (List Char)
  | [], rest => some rest
  | _ :: _, [] => none
  | p :: ps, c :: cs =>
      if c = p ∨ c.toNat + 32 = p.toNat then matchLiteralCI ps cs else none

/-- The regex ` *`: consume leading spaces. -/
def skipSpaces : List Char → List Char
  | ' ' :: cs => skipSpaces cs
  | cs => cs

/-- Consume leading decimal digits. -/
def takeDigits : List Char → List Char × List Char
  | [] => ([], [])
  | c :: cs =>
      if c.isDigit then
        let p := takeDigits cs
        (c :: p.1, p.2)
      else ([], c :: cs)

/-- The value group of the header regex, `-?\d+\.?\d*`, matched greedily
at the current position. -/
def matchNumber (cs : List Char) : Option (List Char) :=
  let start : List Char × List Char :=
    match cs with
    | '-' :: r => (['-'], r)
    | _ => ([], cs)
  let ds := takeDigits start.2
  if ds.1 = [] then none
  else
    match ds.2 with
    | '.' :: r2 =>
        let ds2 := takeDigits r2
        some (start.1 ++ ds.1 ++ ['.'] ++ ds2.1)
    | _ => some (start.1 ++ ds.1)

/-- Attempt the full header pattern `Nb header lines *: *(-?\d+\.?\d*)`
(case-insensitive) at the current position, returning the value group. -/
def tryMatchAt (cs : List Char) : Option (List Char) :=
  match matchLiteralCI nbPattern cs with
  | none => none
  | some r1 =>
      match skipSpaces r1 with
      | ':' :: r2 => matchNumber (skipSpaces r2)
      | _ => none

/-- The leftmost header-pattern match in a line (`re.findall` yields
matches left to right; the code uses the first). -/
def findNbAux : List Char → Option String
  | [] => none
  | c :: rest =>
      match tryMatchAt (c :: rest) with
      | some num => some (String.mk num)
      | none => findNbAux rest

/-- The value group of the first header-pattern match in the line, when
the line matches. -/
def findNbHeader (line : String) : Option String := findNbAux line.toList

/-- Digit run to number. -/
def digitsToNat (ds : List Char) : Nat :=
  ds.foldl (fun n c => 10 * n + (c.toNat - 48)) 0

/-- Python `int(s)` on the strings the regex can produce: an optional
minus sign followed by digits parses; anything else (such as a trailing
`.`) raises ValueError. -/
def pyInt (s : String) : Except PyErr Int :=
  match s.toList with
  | '-' :: ds =>
      if ds ≠ [] ∧ ds.all Char.isDigit then
        Except.ok (-(digitsToNat ds : Int))
      else Except.error PyErr.valueError
  | ds =>
      if ds ≠ [] ∧ ds.all Char.isDigit then
        Except.ok ((digitsToNat ds : Int))
      else Except.error PyErr.valueError

/-- `ECLabLoader.header_lines` (eclabloader.py lines 153-192) on the line
list: collect the matching lines; `matches[0]` raises IndexError when no
line matched; otherwise `int(first value) - 1`. -/
def headerLinesFromLines (lines : List String) : Except PyErr Int :=
  match lines.filterMap findNbHeader with
  | [] => Except.error PyErr.indexError
  | v :: _ => do
      let n ← pyInt v
      Except.ok (n - 1)

/-- `ECLabLoader.header_lines` on the raw file content. -/
def eclabHeaderLinesE (file : String) : Except PyErr Int :=
  headerLinesFromLines (pyReadlines file)

/-- Python slice `l[i:]` for a possibly negative index. -/
def pySliceFrom (l : List String) (i : Int) : List String :=
  if 0 ≤ i then l.drop i.toNat
  else l.drop (l.length - (-i).toNat)

/-- `ECLabLoader.decimal` (eclabloader.py lines 260-291): look at the
first data line (`self.data.readlines()[0]`, where `CSVloader.data` is
the file lines after index `header_lines + 1`, re-joined and re-split,
which yields the same tail); a comma in it means decimal comma, else
period. -/
def eclabDecimalE (file : String) : Except PyErr String := do
  let hl ← eclabHeaderLinesE file
  match pySliceFrom (pyReadlines file) (hl + 1) with
  | [] => Except.error PyErr.indexError
  | d :: _ => Except.ok (if (',') ∈ d.toList then "," else ".")

/-- The Scenario C input: the EC-Lab example file with comma decimals. -/
def scenarioCFile : String :=
  "EC-Lab ASCII FILE\nNb header lines : 6\n\nDevice metadata : some metadata\n\nmode\ttime/s\tEwe/V\t<I>/mA\tcontrol/V\n2\t0\t0,1\t0\t0\n2\t1\t1,4\t5\t1\n"

/-- The heap of materialized frictionless `Field` objects.  Each property
access (`loader.schema`, the converter's `_schema`) constructs fresh
`Field` objects from descriptor data — frictionless v4 `Metadata` copies a
mapping descriptor on construction — modelled as allocation of new cells
at the end of the heap.  The rename loop of `ECConverter._schema` then
mutates those objects in place, modelled as heap writes. -/
abbrev Heap := List FieldDesc

/-- Dereference a heap address. -/
def heapGet (h : Heap) (a : Nat) : FieldDesc := h.getD a default

/-- Write a heap address. -/
def heapSet (h : Heap) (a : Nat) (f : FieldDesc) : Heap := h.set a f

/-- The addresses of a block of `m` cells starting at `o`. -/
def blockAddrs (o m : Nat) : List Nat := (List.range m).map (fun k => o + k)

/-- Allocate one fresh `Field` object per descriptor, returning the new
heap and the addresses of the block. -/
def heapAllocBlock (h : Heap) (fs : List FieldDesc) : Heap × List Nat :=
  (h ++ fs, blockAddrs h.length fs.length)

/-- `schema.get_field(n)` over a schema's address list: the first address
whose field is currently named `n`. -/
def getFieldAddr (h : Heap) (addrs : List Nat) (n : String) : Option Nat :=
  addrs.find? (fun a => decide (nameOrEmpty (heapGet h a) = n))

/-- The rename loop of `ECConverter._schema` as heap writes: for each
snapshot name with an entry in the rename map, write the new name into the
first field currently carrying the old name
(`schema.get_field(name)["name"] = ...`). -/
def renameHeapLoop (conv : List (String × String)) (addrs : List Nat) :
    List String → Heap → Heap
  | [], h => h
  | n :: ns, h =>
      match lookupConv conv n with
      | none => renameHeapLoop conv addrs ns h
      | some v =>
          match getFieldAddr h addrs n with
          | none => renameHeapLoop conv addrs ns h
          | some a =>
              renameHeapLoop conv addrs ns
                (heapSet h a { heapGet h a with name := some v })

/-- One evaluation of `ECConverter._schema` on the heap: construct the
loader's schema (freshly copied `Field` objects), take the snapshot of its
field names, and run the rename loop over it. -/
def ecUnderscoreSchemaHeap (conv : List (String × String)) (l : Loader)
    (h : Heap) : Heap × List Nat :=
  (renameHeapLoop conv (heapAllocBlock h (loaderFields l)).2
    ((heapAllocBlock h (loaderFields l)).2.map
      (fun a => nameOrEmpty (heapGet (heapAllocBlock h (loaderFields l)).1 a)))
    (heapAllocBlock h (loaderFields l)).1,
   (heapAllocBlock h (loaderFields l)).2)

/-- The schema value read back from its addresses. -/
def readBack (p : Heap × List Nat) : List FieldDesc :=
  p.2.map (fun a => heapGet p.1 a)

section DimLemmas

theorem availableDimensions_eq_filter (cols : List String) :
    availableDimensions cols
      = canonicalAliases.filter (fun a => decide (a ∈ cols)) := by
  by_cases h1 : "t" ∈ cols <;> by_cases h2 : "E" ∈ cols <;>
    by_cases h3 : "U" ∈ cols <;> by_cases h4 : "I" ∈ cols <;>
    by_cases h5 : "j" ∈ cols <;>
    simp [availableDimensions, valid_dimensions, core_dimensions,
      canonicalAliases, h1, h2, h3, h4, h5]

theorem validateAux_ok_of_mem (cols : List String)
    (ht : "t" ∈ cols) (hv : "E" ∈ cols ∨ "U" ∈ cols)
    (hc : "I" ∈ cols ∨ "j" ∈ cols) :
    validateAux core_dimensions cols = Except.ok true := by
  have h1 : (["t"].filter (fun a => decide (a ∈ cols))) ≠ [] := by
    simp [ht]
  have h2 : (["E", "U"].filter (fun a => decide (a ∈ cols))) ≠ [] := by
    rcases hv with h | h
    · simp [h]
    · by_cases hE : "E" ∈ cols <;> simp [h, hE]
  have h3 : (["I", "j"].filter (fun a => decide (a ∈ cols))) ≠ [] := by
    rcases hc with h | h
    · simp [h]
    · by_cases hI : "I" ∈ cols <;> simp [h, hI]
  simp only [core_dimensions, validateAux, if_neg h1, if_neg h2, if_neg h3]

theorem get_ec_dims_of_mem (cols : List String)
    (ht : "t" ∈ cols) (hv : "E" ∈ cols ∨ "U" ∈ cols)
    (hc : "I" ∈ cols ∨ "j" ∈ cols) :
    get_electrochemistry_dimensions cols
      = Except.ok (canonicalAliases.filter (fun a => decide (a ∈ cols))) := by
  unfold get_electrochemistry_dimensions validate_core_dimensions
  rw [validateAux_ok_of_mem cols ht hv hc]
  simp [availableDimensions_eq_filter, bind, Except.bind]

theorem validateAux_eq_firstMissing (dims : List (String × List String))
    (cols : List String) :
    validateAux dims cols =
      match (dims.find? (fun p => p.2.all (fun a => decide (a ∉ cols)))).map Prod.fst with
      | none => Except.ok true
      | some d => Except.error (PyErr.keyErrorAxis d) := by
  induction dims with
  | nil => simp [validateAux, List.find?]
  | cons p rest ih =>
      by_cases hp : p.2.filter (fun a => decide (a ∈ cols)) = []
      · have hall : (p.2.all (fun a => decide (a ∉ cols))) = true := by
          rw [List.all_eq_true]
          intro a ha
          have := (List.filter_eq_nil_iff.mp hp) a ha
          simpa using this
        simp only [decide_not] at hall
        rw [List.find?_cons]
        simp [validateAux, hp, hall]
      · have hall : (p.2.all (fun a => decide (a ∉ cols))) = false := by
          rcases List.exists_cons_of_ne_nil hp with ⟨b, bs, hbs⟩
          have hb : b ∈ p.2.filter (fun a => decide (a ∈ cols)) := by
            rw [hbs]; exact List.mem_cons_self b bs
          have hb2 := List.mem_filter.mp hb
          rw [List.all_eq_false]
          exact ⟨b, hb2.1, by simpa using hb2.2⟩
        simp only [decide_not] at hall
        rw [List.find?_cons]
        simp [validateAux, hp, hall, ih]

theorem validateAux_congr_of_mem (dims : List (String × List String))
    (cs1 cs2 : List String) (hmem : ∀ a, a ∈ cs1 ↔ a ∈ cs2) :
    validateAux dims cs1 = validateAux dims cs2 := by
  induction dims with
  | nil => rfl
  | cons p rest ih =>
      have hfil : p.2.filter (fun a => decide (a ∈ cs1))
          = p.2.filter (fun a => decide (a ∈ cs2)) :=
        List.filter_congr (fun a _ => decide_eq_decide.mpr (hmem a))
      simp only [validateAux, hfil]
      by_cases h : p.2.filter (fun a => decide (a ∈ cs2)) = []
      · rw [if_pos h, if_pos h]
      · rw [if_neg h, if_neg h]; exact ih

end DimLemmas

section LoaderLemmas

theorem pyRemoveFirstEq_sublist (x : FieldDesc) (l : List FieldDesc) :
    (pyRemoveFirstEq x l).Sublist l := by
  induction l with
  | nil => simp [pyRemoveFirstEq]
  | cons f fs ih =>
      by_cases h : f = x
      · simp only [pyRemoveFirstEq, if_pos h]
        exact List.sublist_cons_self f fs
      · simp only [pyRemoveFirstEq, if_neg h]
        exact List.Sublist.cons₂ f ih

theorem dropNamelessAux_sublist (fuel : Nat) :
    ∀ (l : List FieldDesc) (i : Nat), (dropNamelessAux fuel l i).Sublist l := by
  induction fuel with
  | zero => intro l i; exact List.Sublist.refl l
  | succ k ih =>
      intro l i
      rw [dropNamelessAux]
      by_cases h : i < l.length
      · rw [dif_pos h]
        by_cases hn : (l.get ⟨i, h⟩).name = none
        · rw [if_pos hn]
          exact (ih _ _).trans (pyRemoveFirstEq_sublist _ l)
        · rw [if_neg hn]
          exact ih l (i + 1)
      · rw [dif_neg h]

theorem dropNamelessPy_sublist (l : List FieldDesc) (i : Nat) :
    (dropNamelessPy l i).Sublist l :=
  dropNamelessAux_sublist (l.length - i) l i

theorem removeFirstByName_sublist (n : String) (fs : List FieldDesc) :
    (removeFirstByName n fs).Sublist fs := by
  induction fs with
  | nil => simp [removeFirstByName]
  | cons f fs ih =>
      by_cases h : nameOrEmpty f = n
      · simp only [removeFirstByName, if_pos h]
        exact List.sublist_cons_self f fs
      · simp only [removeFirstByName, if_neg h]
        exact List.Sublist.cons₂ f ih

theorem map_removeFirstByName (n : String) (fs : List FieldDesc) :
    (removeFirstByName n fs).map nameOrEmpty = (fs.map nameOrEmpty).erase n := by
  induction fs with
  | nil => simp [removeFirstByName]
  | cons f fs ih =>
      by_cases h : nameOrEmpty f = n
      · simp [removeFirstByName, h, List.erase_cons_head]
      · simp only [removeFirstByName, if_neg h, List.map_cons]
        rw [List.erase_cons_tail (by simpa using h), ih]

theorem map_removeObsolete (cols : List String) (ns : List String)
    (fs : List FieldDesc) :
    (removeObsolete cols ns fs).map nameOrEmpty
      = eraseLoop cols ns (fs.map nameOrEmpty) := by
  induction ns generalizing fs with
  | nil => rfl
  | cons n ns ih =>
      simp only [removeObsolete, eraseLoop]
      by_cases h : n ∈ cols
      · rw [if_pos h, if_pos h]; exact ih fs
      · rw [if_neg h, if_neg h, ← map_removeFirstByName]; exact ih _

theorem removeObsolete_sublist (cols : List String) (ns : List String)
    (fs : List FieldDesc) : (removeObsolete cols ns fs).Sublist fs := by
  induction ns generalizing fs with
  | nil => exact List.Sublist.refl fs
  | cons n ns ih =>
      simp only [removeObsolete]
      by_cases h : n ∈ cols
      · rw [if_pos h]; exact ih fs
      · rw [if_neg h]
        exact (ih _).trans (removeFirstByName_sublist n fs)

theorem eraseLoop_sublist (cols : List String) (ns : List String)
    (xs : List String) : (eraseLoop cols ns xs).Sublist xs := by
  induction ns generalizing xs with
  | nil => exact List.Sublist.refl xs
  | cons n ns ih =>
      simp only [eraseLoop]
      by_cases h : n ∈ cols
      · rw [if_pos h]; exact ih xs
      · rw [if_neg h]
        exact (ih _).trans (List.erase_sublist n xs)

theorem eraseLoop_count_zero (cols : List String) (ns : List String) :
    ∀ (xs : List String), (∀ x, x ∉ cols → xs.count x ≤ ns.count x) →
      ∀ x, x ∉ cols → (eraseLoop cols ns xs).count x = 0 := by
  induction ns with
  | nil =>
      intro xs h x hx
      have := h x hx
      simp only [eraseLoop]
      simp at this
      omega
  | cons n ns ih =>
      intro xs h x hx
      simp only [eraseLoop]
      by_cases hn : n ∈ cols
      · rw [if_pos hn]
        refine ih xs (fun y hy => ?_) x hx
        have hne : y ≠ n := fun he => hy (he ▸ hn)
        have := h y hy
        rwa [List.count_cons_of_ne hne] at this
      · rw [if_neg hn]
        refine ih (xs.erase n) (fun y hy => ?_) x hx
        by_cases hyn : y = n
        · subst hyn
          have := h y hy
          rw [List.count_cons_self] at this
          rw [List.count_erase_self]
          omega
        · rw [List.count_erase_of_ne hyn]
          have := h y hy
          rwa [List.count_cons_of_ne hyn] at this

theorem removeObsolete_names_mem (cols : List String) (fs : List FieldDesc) :
    ∀ x ∈ (removeObsolete cols (fs.map nameOrEmpty) fs).map nameOrEmpty,
      x ∈ cols := by
  intro x hxmem
  by_contra hx
  rw [map_removeObsolete] at hxmem
  have h0 := eraseLoop_count_zero cols (fs.map nameOrEmpty) (fs.map nameOrEmpty)
    (fun y _ => le_refl _) x hx
  have := List.count_pos_iff.mpr hxmem
  omega

theorem addMissing_mem_preserved (cs : List String) :
    ∀ (fs : List FieldDesc) (x : String), x ∈ fs.map nameOrEmpty →
      x ∈ (addMissing cs fs).map nameOrEmpty := by
  induction cs with
  | nil => intro fs x hx; simpa [addMissing] using hx
  | cons c cs ih =>
      intro fs x hx
      simp only [addMissing]
      by_cases h : c ∈ fs.map nameOrEmpty
      · rw [if_pos h]; exact ih fs x hx
      · rw [if_neg h]
        refine ih _ x ?_
        simp only [List.map_append]
        exact List.mem_append_left _ hx

theorem addMissing_mem_cols (cs : List String) :
    ∀ (fs : List FieldDesc) (c : String), c ∈ cs →
      c ∈ (addMissing cs fs).map nameOrEmpty := by
  induction cs with
  | nil => intro fs c hc; cases hc
  | cons c0 cs ih =>
      intro fs c hc
      simp only [addMissing]
      rcases List.mem_cons.mp hc with h1 | h1
      · subst h1
        by_cases h : c ∈ fs.map nameOrEmpty
        · rw [if_pos h]; exact addMissing_mem_preserved cs fs c h
        · rw [if_neg h]
          refine addMissing_mem_preserved cs _ c ?_
          simp [nameOrEmpty, create_field]
      · by_cases h : c0 ∈ fs.map nameOrEmpty
        · rw [if_pos h]; exact ih fs c h1
        · rw [if_neg h]; exact ih _ c h1

theorem addMissing_names_subset (cs : List String) :
    ∀ (fs : List FieldDesc) (x : String),
      x ∈ (addMissing cs fs).map nameOrEmpty →
        x ∈ fs.map nameOrEmpty ∨ x ∈ cs := by
  induction cs with
  | nil => intro fs x hx; left; simpa [addMissing] using hx
  | cons c cs ih =>
      intro fs x hx
      simp only [addMissing] at hx
      by_cases h : c ∈ fs.map nameOrEmpty
      · rw [if_pos h] at hx
        rcases ih fs x hx with h1 | h1
        · exact Or.inl h1
        · exact Or.inr (List.mem_cons_of_mem c h1)
      · rw [if_neg h] at hx
        rcases ih _ x hx with h1 | h1
        · simp only [List.map_append] at h1
          rcases List.mem_append.mp h1 with h2 | h2
          · exact Or.inl h2
          · simp [nameOrEmpty, create_field] at h2
            exact Or.inr (h2 ▸ List.mem_cons_self c cs)
        · exact Or.inr (List.mem_cons_of_mem c h1)

theorem addMissing_nodup (cs : List String) :
    ∀ (fs : List FieldDesc), (fs.map nameOrEmpty).Nodup →
      ((addMissing cs fs).map nameOrEmpty).Nodup := by
  induction cs with
  | nil => intro fs h; simpa [addMissing] using h
  | cons c cs ih =>
      intro fs h
      simp only [addMissing]
      by_cases hc : c ∈ fs.map nameOrEmpty
      · rw [if_pos hc]; exact ih fs h
      · rw [if_neg hc]
        refine ih _ ?_
        simp only [List.map_append]
        rw [List.nodup_append]
        refine ⟨h, by simp [nameOrEmpty, create_field], ?_⟩
        intro a ha hb
        simp [nameOrEmpty, create_field] at hb
        exact hc (hb ▸ ha)

theorem addMissing_elem (cs : List String) :
    ∀ (fs : List FieldDesc) (f : FieldDesc), f ∈ addMissing cs fs →
      f ∈ fs ∨ ∃ c, c ∈ cs ∧ f = create_field c := by
  induction cs with
  | nil => intro fs f hf; left; simpa [addMissing] using hf
  | cons c cs ih =>
      intro fs f hf
      simp only [addMissing] at hf
      by_cases h : c ∈ fs.map nameOrEmpty
      · rw [if_pos h] at hf
        rcases ih fs f hf with h1 | ⟨d, hd, he⟩
        · exact Or.inl h1
        · exact Or.inr ⟨d, List.mem_cons_of_mem c hd, he⟩
      · rw [if_neg h] at hf
        rcases ih _ f hf with h1 | ⟨d, hd, he⟩
        · rcases List.mem_append.mp h1 with h2 | h2
          · exact Or.inl h2
          · simp only [List.mem_singleton] at h2
            exact Or.inr ⟨c, List.mem_cons_self c cs, h2⟩
        · exact Or.inr ⟨d, List.mem_cons_of_mem c hd, he⟩

theorem length_eq_of_nodup_memEq {xs ys : List String} (hx : xs.Nodup)
    (hy : ys.Nodup) (h : ∀ n, n ∈ xs ↔ n ∈ ys) : xs.length = ys.length :=
  ((List.perm_ext_iff_of_nodup hx hy).mpr h).length_eq

theorem loaderFields_some_ne_nil (k : LoaderKind) (cols : List String)
    (rows : List (List String)) (fs : List FieldDesc) (h : fs ≠ []) :
    loaderFields (Loader.mk k cols rows (some fs))
      = reconcileUserFields cols fs := by
  cases fs with
  | nil => exact absurd rfl h
  | cons f fs => rfl

theorem schemaFieldNames_base_none (cols : List String)
    (rows : List (List String)) :
    schemaFieldNames (Loader.mk LoaderKind.base cols rows none) = cols := by
  show (cols.map create_field).map nameOrEmpty = cols
  rw [List.map_map]
  have hcomp : (nameOrEmpty ∘ create_field) = id := by
    funext c
    rfl
  rw [hcomp, List.map_id]

theorem reconcile_names_memEq (cols : List String) (fs : List FieldDesc) :
    ∀ n, n ∈ (reconcileUserFields cols fs).map nameOrEmpty ↔ n ∈ cols := by
  intro n
  constructor
  · intro hn
    rcases addMissing_names_subset cols _ n hn with h | h
    · exact removeObsolete_names_mem cols (dropNamelessPy fs 0) n h
    · exact h
  · intro hn
    exact addMissing_mem_cols cols _ n hn

theorem reconcile_length (cols : List String) (fs : List FieldDesc)
    (hcols : cols.Nodup) (hfs : (fs.map nameOrEmpty).Nodup) :
    (reconcileUserFields cols fs).length = cols.length := by
  have h1 : ((dropNamelessPy fs 0).map nameOrEmpty).Nodup :=
    ((dropNamelessPy_sublist fs 0).map nameOrEmpty).nodup hfs
  have h2 : ((removeObsolete cols ((dropNamelessPy fs 0).map nameOrEmpty)
      (dropNamelessPy fs 0)).map nameOrEmpty).Nodup := by
    rw [map_removeObsolete]
    exact (eraseLoop_sublist cols _ _).nodup h1
  have h3 := addMissing_nodup cols _ h2
  have hlen := length_eq_of_nodup_memEq h3 hcols (reconcile_names_memEq cols fs)
  calc (reconcileUserFields cols fs).length
      = ((reconcileUserFields cols fs).map nameOrEmpty).length :=
        (List.length_map _ _).symm
    _ = cols.length := hlen

theorem create_fields_eclab_inner (f : FieldDesc) (cols : List String)
    (acc : List FieldDesc) :
    cols.foldl (fun acc2 n => if f.name = some n then acc2 ++ [f] else acc2) acc
      = acc ++ (cols.filter (fun n => decide (f.name = some n))).map (fun _ => f) := by
  induction cols generalizing acc with
  | nil => simp
  | cons c cs ih =>
      simp only [List.foldl_cons, List.filter_cons]
      by_cases h : f.name = some c
      · rw [if_pos h, ih (acc ++ [f])]
        have hd : decide (f.name = some c) = true := by simpa using h
        rw [hd]
        simp [List.append_assoc]
      · rw [if_neg h, ih acc]
        have hd : decide (f.name = some c) = false := by simpa using h
        rw [hd]
        simp

theorem foldl_append_blocks (g : FieldDesc → List FieldDesc)
    (l : List FieldDesc) (init : List FieldDesc) :
    l.foldl (fun acc f => acc ++ g f) init = init ++ (l.map g).flatten := by
  induction l generalizing init with
  | nil => simp
  | cons f fs ih => simp [List.foldl_cons, ih]

theorem create_fields_eclab_eq_join (cols : List String) :
    create_fields_eclab cols
      = (biologic_fields.map (fun f =>
          (cols.filter (fun n => decide (f.name = some n))).map (fun _ => f))).flatten := by
  unfold create_fields_eclab
  have h : (fun (acc : List FieldDesc) (f : FieldDesc) =>
      cols.foldl (fun acc2 n => if f.name = some n then acc2 ++ [f] else acc2) acc)
      = fun acc f =>
          acc ++ (cols.filter (fun n => decide (f.name = some n))).map (fun _ => f) := by
    funext acc f
    exact create_fields_eclab_inner f cols acc
  rw [h, foldl_append_blocks]
  simp

theorem mem_create_fields_eclab (cols : List String) (f : FieldDesc) :
    f ∈ create_fields_eclab cols
      ↔ f ∈ biologic_fields ∧ ∃ n, n ∈ cols ∧ f.name = some n := by
  rw [create_fields_eclab_eq_join]
  constructor
  · intro hf
    rcases List.mem_flatten.mp hf with ⟨L, hL, hfL⟩
    rcases List.mem_map.mp hL with ⟨g, hg, hgL⟩
    subst hgL
    rcases List.mem_map.mp hfL with ⟨n, hn, he⟩
    subst he
    have hn2 := List.mem_filter.mp hn
    exact ⟨hg, n, hn2.1, by simpa using hn2.2⟩
  · rintro ⟨hf, n, hn, hname⟩
    refine List.mem_flatten.mpr
      ⟨(cols.filter (fun m => decide (f.name = some m))).map (fun _ => f),
        List.mem_map.mpr ⟨f, hf, rfl⟩, ?_⟩
    refine List.mem_map.mpr ⟨n, ?_, rfl⟩
    exact List.mem_filter.mpr ⟨hn, by simpa using hname⟩

theorem mem_create_fields_eclab_names (cols : List String) (x : String) :
    x ∈ (create_fields_eclab cols).map nameOrEmpty
      ↔ ∃ f, f ∈ biologic_fields ∧ f.name = some x ∧ x ∈ cols := by
  constructor
  · intro hx
    rcases List.mem_map.mp hx with ⟨f, hf, he⟩
    rcases (mem_create_fields_eclab cols f).mp hf with ⟨hreg, n, hn, hname⟩
    have hxn : x = n := by
      rw [← he]
      simp [nameOrEmpty, hname]
    subst hxn
    exact ⟨f, hreg, hname, hn⟩
  · rintro ⟨f, hreg, hname, hx⟩
    refine List.mem_map.mpr ⟨f, ?_, by simp [nameOrEmpty, hname]⟩
    exact (mem_create_fields_eclab cols f).mpr ⟨hreg, x, hx, hname⟩

theorem eclab_names_memEq (cols : List String)
    (hcov : ∀ c ∈ cols, c ∈ registryNames) :
    ∀ n, n ∈ (create_fields_eclab cols).map nameOrEmpty ↔ n ∈ cols := by
  intro n
  constructor
  · intro hn
    rcases (mem_create_fields_eclab_names cols n).mp hn with ⟨f, _, _, hcol⟩
    exact hcol
  · intro hn
    rcases List.mem_filterMap.mp (hcov n hn) with ⟨f, hf, hname⟩
    exact (mem_create_fields_eclab_names cols n).mpr ⟨f, hf, hname, hn⟩

theorem const_map_sublist_singleton (v : String) (xs : List String)
    (h : xs.length ≤ 1) : (xs.map (fun _ => v)).Sublist [v] := by
  match xs with
  | [] => simp
  | [x] => simp
  | x :: y :: r => simp at h

theorem nodup_all_eq_length_le_one {l : List String} {m : String}
    (hnd : l.Nodup) (hall : ∀ x ∈ l, x = m) : l.length ≤ 1 := by
  match l, hnd with
  | [], _ => simp
  | [x], _ => simp
  | x :: y :: r, hnd =>
      have hx : x = m := hall x (List.mem_cons_self _ _)
      have hy : y = m := hall y (List.mem_cons_of_mem _ (List.mem_cons_self _ _))
      have := (List.nodup_cons.mp hnd).1
      exact absurd (by rw [hx, hy]; exact List.mem_cons_self m r) this

theorem eclab_names_sublist_registry (cols : List String) (hcols : cols.Nodup) :
    ((create_fields_eclab cols).map nameOrEmpty).Sublist
      (biologic_fields.map nameOrEmpty) := by
  rw [create_fields_eclab_eq_join]
  have key : ∀ regs : List FieldDesc,
      (((regs.map (fun f =>
          (cols.filter (fun n => decide (f.name = some n))).map (fun _ => f))).flatten).map
        nameOrEmpty).Sublist (regs.map nameOrEmpty) := by
    intro regs
    induction regs with
    | nil => simp
    | cons f fs ih =>
        simp only [List.map_cons, List.flatten_cons, List.map_append]
        rw [← List.singleton_append]
        refine List.Sublist.append ?_ ih
        rw [List.map_map]
        have hall2 : ∀ x ∈ cols.filter (fun n => decide (f.name = some n)),
            x = nameOrEmpty f := by
          intro x hx
          have hmem := (List.mem_filter.mp hx).2
          simp only [decide_eq_true_eq] at hmem
          simp [nameOrEmpty, hmem]
        have hlen := nodup_all_eq_length_le_one (hcols.filter _) hall2
        have hsub := const_map_sublist_singleton (nameOrEmpty f)
          (cols.filter (fun n => decide (f.name = some n))) hlen
        exact hsub
  exact key biologic_fields

theorem registry_names_nodup : (biologic_fields.map nameOrEmpty).Nodup := by
  decide

theorem eclab_names_length (cols : List String) (hcols : cols.Nodup)
    (hcov : ∀ c ∈ cols, c ∈ registryNames) :
    (create_fields_eclab cols).length = cols.length := by
  have hnd : ((create_fields_eclab cols).map nameOrEmpty).Nodup :=
    (eclab_names_sublist_registry cols hcols).nodup registry_names_nodup
  have h := length_eq_of_nodup_memEq hnd hcols (eclab_names_memEq cols hcov)
  calc (create_fields_eclab cols).length
      = ((create_fields_eclab cols).map nameOrEmpty).length :=
        (List.length_map _ _).symm
    _ = cols.length := h

end LoaderLemmas

section HeapLemmas

theorem blockAddrs_cons (o m : Nat) :
    blockAddrs o (m + 1) = o :: blockAddrs (o + 1) m := by
  unfold blockAddrs
  rw [List.range_succ_eq_map]
  simp only [List.map_cons, Nat.add_zero, List.map_map]
  have hc : ((fun k => o + k) ∘ Nat.succ) = (fun k => (o + 1) + k) := by
    funext k
    simp only [Function.comp]
    omega
  rw [hc]

theorem heapGet_append (b : Heap) : ∀ (h : Heap) (k : Nat),
    heapGet (h ++ b) (h.length + k) = heapGet b k := by
  intro h
  induction h with
  | nil => intro k; simp [heapGet]
  | cons f hs ih =>
      intro k
      show heapGet (f :: (hs ++ b)) (hs.length + 1 + k) = heapGet b k
      have he : hs.length + 1 + k = (hs.length + k) + 1 := by omega
      rw [he]
      show (f :: (hs ++ b)).getD ((hs.length + k) + 1) default = heapGet b k
      rw [List.getD_cons_succ]
      exact ih k

theorem heapSet_append (b : Heap) : ∀ (h : Heap) (k : Nat) (f : FieldDesc),
    heapSet (h ++ b) (h.length + k) f = h ++ heapSet b k f := by
  intro h
  induction h with
  | nil => intro k f; simp [heapSet]
  | cons g hs ih =>
      intro k f
      show (g :: (hs ++ b)).set (hs.length + 1 + k) f
        = g :: (hs ++ heapSet b k f)
      have he : hs.length + 1 + k = (hs.length + k) + 1 := by omega
      rw [he, List.set_cons_succ]
      show g :: heapSet (hs ++ b) (hs.length + k) f = g :: (hs ++ heapSet b k f)
      rw [ih k f]

theorem map_heapGet_blockAddrs (b : Heap) : ∀ (h : Heap),
    (blockAddrs h.length b.length).map (fun a => heapGet (h ++ b) a) = b := by
  induction b with
  | nil => intro h; simp [blockAddrs]
  | cons f bs ih =>
      intro h
      rw [show (f :: bs).length = bs.length + 1 from rfl, blockAddrs_cons]
      simp only [List.map_cons]
      have hhead : heapGet (h ++ f :: bs) h.length = f := by
        have h0 := heapGet_append (f :: bs) h 0
        simpa using h0
      rw [hhead]
      have hhf : h ++ f :: bs = (h ++ [f]) ++ bs := by simp
      have hlen : h.length + 1 = (h ++ [f]).length := by simp
      rw [hhf, hlen, ih (h ++ [f])]

theorem setNameFirst_length (n v : String) (b : List FieldDesc) :
    (setNameFirst n v b).length = b.length := by
  induction b with
  | nil => rfl
  | cons f bs ih =>
      by_cases hf : nameOrEmpty f = n <;> simp [setNameFirst, hf, ih]

theorem setNameFirst_eq_findIdx (n v : String) (b : List FieldDesc) :
    setNameFirst n v b
      = match b.findIdx? (fun f => decide (nameOrEmpty f = n)) with
        | none => b
        | some k => b.set k { (b.getD k default) with name := some v } := by
  induction b with
  | nil => rfl
  | cons f bs ih =>
      by_cases hf : nameOrEmpty f = n
      · have hd : decide (nameOrEmpty f = n) = true := by simpa using hf
        simp [setNameFirst, hf, List.findIdx?_cons, hd]
      · have hd : decide (nameOrEmpty f = n) = false := by simpa using hf
        simp only [setNameFirst, if_neg hf, List.findIdx?_cons, hd,
          Bool.false_eq_true, if_false, List.findIdx?_succ]
        cases hidx : bs.findIdx? (fun f => decide (nameOrEmpty f = n)) with
        | none =>
            rw [hidx] at ih
            simp [ih]
        | some k =>
            rw [hidx] at ih
            simp only [Option.map_some', List.set_cons_succ, List.getD_cons_succ]
            rw [ih]

theorem getFieldAddr_block (b : Heap) : ∀ (h : Heap) (n : String),
    getFieldAddr (h ++ b) (blockAddrs h.length b.length) n
      = (b.findIdx? (fun f => decide (nameOrEmpty f = n))).map
          (fun k => h.length + k) := by
  induction b with
  | nil => intro h n; simp [getFieldAddr, blockAddrs]
  | cons f bs ih =>
      intro h n
      rw [show (f :: bs).length = bs.length + 1 from rfl, blockAddrs_cons]
      unfold getFieldAddr
      rw [List.find?_cons]
      have hhead : heapGet (h ++ f :: bs) h.length = f := by
        have h0 := heapGet_append (f :: bs) h 0
        simpa using h0
      by_cases hf : nameOrEmpty f = n
      · have hcond : decide (nameOrEmpty (heapGet (h ++ f :: bs) h.length) = n)
            = true := by
          rw [hhead]; simpa using hf
        have hd : decide (nameOrEmpty f = n) = true := by simpa using hf
        rw [hcond]
        simp [List.findIdx?_cons, hd]
      · have hcond : decide (nameOrEmpty (heapGet (h ++ f :: bs) h.length) = n)
            = false := by
          rw [hhead]; simpa using hf
        have hd : decide (nameOrEmpty f = n) = false := by simpa using hf
        rw [hcond]
        have hhf : h ++ f :: bs = (h ++ [f]) ++ bs := by simp
        have hlen : h.length + 1 = (h ++ [f]).length := by simp
        show getFieldAddr (h ++ f :: bs) (blockAddrs (h.length + 1) bs.length) n
          = _
        rw [hhf, hlen, ih (h ++ [f]) n]
        have hrhs : (List.findIdx? (fun g => decide (nameOrEmpty g = n)) (f :: bs))
            = (List.findIdx? (fun g => decide (nameOrEmpty g = n)) bs).map
                (fun i => i + 1) := by
          rw [List.findIdx?_cons, hd]
          simp [List.findIdx?_succ]
        rw [hrhs, Option.map_map]
        have hlf : (h ++ [f]).length = h.length + 1 := by simp
        have hcomp : ((fun k => h.length + k) ∘ (fun i => i + 1))
            = (fun k => (h ++ [f]).length + k) := by
          funext k
          simp only [Function.comp, hlf]
          omega
        rw [hcomp]

theorem renameHeapLoop_block (conv : List (String × String))
    (ns : List String) :
    ∀ (h b : Heap) (m : Nat), m = b.length →
      renameHeapLoop conv (blockAddrs h.length m) ns (h ++ b)
        = h ++ ns.foldl (renameStep conv) b := by
  induction ns with
  | nil => intro h b m _; rfl
  | cons n ns ih =>
      intro h b m hm
      subst hm
      simp only [renameHeapLoop, List.foldl_cons]
      cases hcv : lookupConv conv n with
      | none =>
          simp only [renameStep, hcv]
          exact ih h b _ rfl
      | some v =>
          simp only [renameStep, hcv]
          rw [getFieldAddr_block b h n]
          cases hidx : b.findIdx? (fun f => decide (nameOrEmpty f = n)) with
          | none =>
              simp only [Option.map_none']
              have hset : setNameFirst n v b = b := by
                rw [setNameFirst_eq_findIdx, hidx]
              rw [hset]
              exact ih h b _ rfl
          | some k =>
              simp only [Option.map_some']
              rw [heapGet_append b h k, heapSet_append b h k]
              have hset : setNameFirst n v b
                  = heapSet b k { (heapGet b k) with name := some v } := by
                rw [setNameFirst_eq_findIdx, hidx]
                rfl
              rw [← hset]
              exact ih h (setNameFirst n v b) _ (setNameFirst_length n v b).symm

theorem renameFold_length (conv : List (String × String)) (ns : List String) :
    ∀ b : List FieldDesc, (ns.foldl (renameStep conv) b).length = b.length := by
  induction ns with
  | nil => intro b; rfl
  | cons n ns ih =>
      intro b
      rw [List.foldl_cons, ih]
      cases hcv : lookupConv conv n with
      | none => simp [renameStep, hcv]
      | some v => simp [renameStep, hcv, setNameFirst_length]

theorem ec_schema_fields_renamed_length (conv : List (String × String))
    (l : Loader) :
    (ec_schema_fields_renamed conv l).length = (loaderFields l).length :=
  renameFold_length conv _ _

theorem ecUnderscoreSchemaHeap_eq (conv : List (String × String)) (l : Loader)
    (h : Heap) :
    ecUnderscoreSchemaHeap conv l h
      = (h ++ ec_schema_fields_renamed conv l,
         blockAddrs h.length (loaderFields l).length) := by
  unfold ecUnderscoreSchemaHeap heapAllocBlock
  simp only []
  have hsnap : (blockAddrs h.length (loaderFields l).length).map
      (fun a => nameOrEmpty (heapGet (h ++ loaderFields l) a))
      = (loaderFields l).map nameOrEmpty := by
    have hstep : ((blockAddrs h.length (loaderFields l).length).map
        (fun a => heapGet (h ++ loaderFields l) a)).map nameOrEmpty
        = (loaderFields l).map nameOrEmpty := by
      rw [map_heapGet_blockAddrs (loaderFields l) h]
    rw [List.map_map] at hstep
    exact hstep
  rw [hsnap]
  rw [renameHeapLoop_block conv _ h (loaderFields l) _ rfl]
  rfl

end HeapLemmas

end Echemdb

/-- C2 counterexample: with column names ["t"], no current alias (I or j) is
present, yet `_validate_core_dimensions` does not fail with the error naming
"current": it names "voltage", the first missing dimension in dictionary
order.  This refutes the claimed biconditional (fails naming a dimension iff
that dimension has no alias present). -/
theorem c2_counterexample :
    Echemdb.validate_core_dimensions ["t"]
        = Except.error (Echemdb.PyErr.keyErrorAxis ("voltage"))
      ∧ ("I" ∉ (["t"] : List String) ∧ "j" ∉ (["t"] : List String))
      ∧ Echemdb.validate_core_dimensions ["t"]
          ≠ Except.error (Echemdb.PyErr.keyErrorAxis ("current")) := by
  refine ⟨by decide, ⟨by decide, by decide⟩, by decide⟩

/-- C2 (amended): `_validate_core_dimensions` fails with the error naming
the FIRST dimension, in the fixed order time, voltage, current, that has no
alias among the column names, and succeeds (returning True) iff every
dimension has an alias present; in particular ["t", "U"] fails naming
"current" and ["t", "U", "I"] succeeds. -/
theorem c2_validate_core_dimensions (cols : List String) :
    (Echemdb.validate_core_dimensions cols =
        match Echemdb.firstMissingDimension cols with
        | none => Except.ok true
        | some d => Except.error (Echemdb.PyErr.keyErrorAxis d))
      ∧ Echemdb.validate_core_dimensions ["t", "U"]
          = Except.error (Echemdb.PyErr.keyErrorAxis ("current"))
      ∧ Echemdb.validate_core_dimensions ["t", "U", "I"] = Except.ok true := by
  refine ⟨?_, by decide, by decide⟩
  rw [Echemdb.validate_core_dimensions,
    Echemdb.validateAux_eq_firstMissing, Echemdb.firstMissingDimension]

/-- C10: the dimension selector depends only on the set of column names:
membership-equal lists give equal outputs, and when the required aliases are
present the output is the canonical-order filter of the aliases present. -/
theorem c10_order_independence (cs1 cs2 : List String)
    (hmem : ∀ a, a ∈ cs1 ↔ a ∈ cs2) :
    Echemdb.get_electrochemistry_dimensions cs1
        = Echemdb.get_electrochemistry_dimensions cs2
      ∧ ("t" ∈ cs1 → ("E" ∈ cs1 ∨ "U" ∈ cs1) → ("I" ∈ cs1 ∨ "j" ∈ cs1) →
          Echemdb.get_electrochemistry_dimensions cs1
            = Except.ok (Echemdb.canonicalAliases.filter
                (fun a => decide (a ∈ cs1)))) := by
  constructor
  · have hval := Echemdb.validateAux_congr_of_mem Echemdb.core_dimensions cs1 cs2 hmem
    have havail : Echemdb.availableDimensions cs1 = Echemdb.availableDimensions cs2 := by
      rw [Echemdb.availableDimensions_eq_filter, Echemdb.availableDimensions_eq_filter]
      exact List.filter_congr (fun a _ => decide_eq_decide.mpr (hmem a))
    unfold Echemdb.get_electrochemistry_dimensions Echemdb.validate_core_dimensions
    rw [hval, havail]
  · intro ht hv hc
    exact Echemdb.get_ec_dims_of_mem cs1 ht hv hc

/-- Witness for C10 at the membership-equal lists [U, t, I] and
[t, I, U, U]. -/
theorem c10_order_independence_witness :
    Echemdb.get_electrochemistry_dimensions ["U", "t", "I"]
        = Echemdb.get_electrochemistry_dimensions ["t", "I", "U", "U"]
      ∧ ("t" ∈ (["U", "t", "I"] : List String) →
          ("E" ∈ (["U", "t", "I"] : List String) ∨ "U" ∈ (["U", "t", "I"] : List String)) →
          ("I" ∈ (["U", "t", "I"] : List String) ∨ "j" ∈ (["U", "t", "I"] : List String)) →
          Echemdb.get_electrochemistry_dimensions ["U", "t", "I"]
            = Except.ok (Echemdb.canonicalAliases.filter
                (fun a => decide (a ∈ (["U", "t", "I"] : List String))))) :=
  c10_order_independence ["U", "t", "I"] ["t", "I", "U", "U"] (by
    intro a
    simp only [List.mem_cons, List.not_mem_nil, or_false]
    tauto)

/-- C1: for every list of column names containing at least one alias of each
required dimension, `get_electrochemistry_dimensions` succeeds and returns
exactly the aliases present, in the fixed canonical order t, E, U, I, j; the
result is a subsequence of [t, E, U, I, j]. -/
theorem c1_dimension_selector (cols : List String)
    (ht : "t" ∈ cols) (hv : "E" ∈ cols ∨ "U" ∈ cols)
    (hc : "I" ∈ cols ∨ "j" ∈ cols) :
    Echemdb.get_electrochemistry_dimensions cols
        = Except.ok (Echemdb.canonicalAliases.filter (fun a => decide (a ∈ cols)))
      ∧ (Echemdb.canonicalAliases.filter (fun a => decide (a ∈ cols))).Sublist
          Echemdb.canonicalAliases := by
  exact ⟨Echemdb.get_ec_dims_of_mem cols ht hv hc, List.filter_sublist _⟩

/-- Witness for C1 at the concrete column list [x, t, U, I]. -/
theorem c1_dimension_selector_witness :
    Echemdb.get_electrochemistry_dimensions ["x", "t", "U", "I"]
        = Except.ok (Echemdb.canonicalAliases.filter
            (fun a => decide (a ∈ (["x", "t", "U", "I"] : List String))))
      ∧ (Echemdb.canonicalAliases.filter
            (fun a => decide (a ∈ (["x", "t", "U", "I"] : List String)))).Sublist
          Echemdb.canonicalAliases :=
  c1_dimension_selector ["x", "t", "U", "I"] (by decide)
    (Or.inr (by decide)) (Or.inl (by decide))

/-- C3 counterexample: an EC-Lab file whose columns include the name "foo",
which is not in the biologic registry, is accepted (no error is raised),
yet the produced schema has no descriptor for "foo": the set of table
column names differs from the set of schema descriptor names. -/
theorem c3_counterexample :
    ("foo" ∈ Echemdb.tableColumnNames
        (Echemdb.Loader.mk Echemdb.LoaderKind.eclab
          ["time/s", "Ewe/V", "<I>/mA", "foo"] [] none))
  ∧ ("foo" ∉ Echemdb.schemaFieldNames
        (Echemdb.Loader.mk Echemdb.LoaderKind.eclab
          ["time/s", "Ewe/V", "<I>/mA", "foo"] [] none)) := by
  exact ⟨by decide, by decide⟩

/-- C3 (amended): the set of table column names equals the set of schema
descriptor names for the base loader with auto-generated fields (with equal
list lengths), and for every loader with non-empty user-supplied fields
(with equal lengths when the column names and the user field names are
duplicate-free); for the EC-Lab loader without user fields it holds
exactly when every column name is a registry name. -/
theorem c3_schema_table_consistency (cols : List String)
    (rows : List (List String)) (fs : List Echemdb.FieldDesc) :
    (∀ n, n ∈ Echemdb.schemaFieldNames
          (Echemdb.Loader.mk Echemdb.LoaderKind.base cols rows none)
        ↔ n ∈ Echemdb.tableColumnNames
          (Echemdb.Loader.mk Echemdb.LoaderKind.base cols rows none))
  ∧ (Echemdb.schemaFieldNames
        (Echemdb.Loader.mk Echemdb.LoaderKind.base cols rows none)).length
      = (Echemdb.tableColumnNames
        (Echemdb.Loader.mk Echemdb.LoaderKind.base cols rows none)).length
  ∧ (∀ k, fs ≠ [] →
      ∀ n, n ∈ Echemdb.schemaFieldNames
            (Echemdb.Loader.mk k cols rows (some fs))
          ↔ n ∈ Echemdb.tableColumnNames
            (Echemdb.Loader.mk k cols rows (some fs)))
  ∧ (∀ k, fs ≠ [] → cols.Nodup → (fs.map Echemdb.nameOrEmpty).Nodup →
      (Echemdb.schemaFieldNames
          (Echemdb.Loader.mk k cols rows (some fs))).length = cols.length)
  ∧ ((∀ c ∈ cols, c ∈ Echemdb.registryNames) →
      ∀ n, n ∈ Echemdb.schemaFieldNames
            (Echemdb.Loader.mk Echemdb.LoaderKind.eclab cols rows none)
          ↔ n ∈ Echemdb.tableColumnNames
            (Echemdb.Loader.mk Echemdb.LoaderKind.eclab cols rows none))
  ∧ (cols.Nodup → (∀ c ∈ cols, c ∈ Echemdb.registryNames) →
      (Echemdb.schemaFieldNames
          (Echemdb.Loader.mk Echemdb.LoaderKind.eclab cols rows none)).length
        = cols.length) := by
  refine ⟨?_, ?_, ?_, ?_, ?_, ?_⟩
  · intro n
    rw [Echemdb.schemaFieldNames_base_none]
    exact Iff.rfl
  · rw [Echemdb.schemaFieldNames_base_none]
    rfl
  · intro k hne n
    rw [Echemdb.schemaFieldNames, Echemdb.loaderFields_some_ne_nil k cols rows fs hne]
    exact Echemdb.reconcile_names_memEq cols fs n
  · intro k hne hcols hfs
    rw [Echemdb.schemaFieldNames, Echemdb.loaderFields_some_ne_nil k cols rows fs hne,
      List.length_map]
    exact Echemdb.reconcile_length cols fs hcols hfs
  · intro hcov n
    exact Echemdb.eclab_names_memEq cols hcov n
  · intro hcols hcov
    rw [Echemdb.schemaFieldNames, List.length_map]
    exact Echemdb.eclab_names_length cols hcols hcov

/-- Witness for C3 (amended) at columns [time/s, Ewe/V, <I>/mA] with the
single user descriptor named time/s, and at the EC-Lab registry-covered
no-user-fields case. -/
theorem c3_schema_table_consistency_witness :
    (∀ n, n ∈ Echemdb.schemaFieldNames
          (Echemdb.Loader.mk Echemdb.LoaderKind.eclab
            ["time/s", "Ewe/V", "<I>/mA"] []
            (some [{ name := some ("time/s") }]))
        ↔ n ∈ Echemdb.tableColumnNames
          (Echemdb.Loader.mk Echemdb.LoaderKind.eclab
            ["time/s", "Ewe/V", "<I>/mA"] []
            (some [{ name := some ("time/s") }])))
  ∧ (Echemdb.schemaFieldNames
      (Echemdb.Loader.mk Echemdb.LoaderKind.eclab
        ["time/s", "Ewe/V", "<I>/mA"] []
        (some [{ name := some ("time/s") }]))).length
      = (["time/s", "Ewe/V", "<I>/mA"] : List String).length
  ∧ (∀ n, n ∈ Echemdb.schemaFieldNames
        (Echemdb.Loader.mk Echemdb.LoaderKind.eclab
          ["time/s", "Ewe/V", "<I>/mA"] [] none)
      ↔ n ∈ Echemdb.tableColumnNames
        (Echemdb.Loader.mk Echemdb.LoaderKind.eclab
          ["time/s", "Ewe/V", "<I>/mA"] [] none))
  ∧ (Echemdb.schemaFieldNames
      (Echemdb.Loader.mk Echemdb.LoaderKind.eclab
        ["time/s", "Ewe/V", "<I>/mA"] [] none)).length
      = (["time/s", "Ewe/V", "<I>/mA"] : List String).length := by
  have h := c3_schema_table_consistency ["time/s", "Ewe/V", "<I>/mA"] []
    [{ name := some ("time/s") }]
  exact ⟨h.2.2.1 Echemdb.LoaderKind.eclab (by decide),
    h.2.2.2.1 Echemdb.LoaderKind.eclab (by decide) (by decide) (by decide),
    h.2.2.2.2.1 (by decide),
    h.2.2.2.2.2 (by decide) (by decide)⟩

/-- C5 counterexample: a user field-descriptor list of length 2 for 3
columns does not make the loader fail: `CSVloader.fields` silently removes
the descriptor whose name is not a column ("x") and synthesizes the missing
descriptors for "t" and "j", returning a normal field list whose names are
exactly the columns. -/
theorem c5_counterexample :
    Echemdb.loaderFields (Echemdb.Loader.mk Echemdb.LoaderKind.base
        ["t", "E", "j"] []
        (some [{ name := some ("E"), unit := some ("V") },
               { name := some ("x") }]))
      = [{ name := some ("E"), unit := some ("V") },
         Echemdb.create_field ("t"), Echemdb.create_field ("j")]
  ∧ ([{ name := some ("E"), unit := some ("V") },
      { name := some ("x") }] : List Echemdb.FieldDesc).length
      ≠ (["t", "E", "j"] : List String).length := by
  exact ⟨by decide, by decide⟩

/-- C5 (amended): supplying a user field-descriptor list whose length
differs from the column count never raises: the reconciliation always
returns a field list, the extra descriptors are dropped and the missing
ones synthesized, and the resulting descriptor names are exactly the
column names as a set (with equal counts when the column names and user
field names are duplicate-free). -/
theorem c5_length_mismatch_reconciled (cols : List String)
    (rows : List (List String)) (fs : List Echemdb.FieldDesc)
    (hne : fs ≠ []) (_hlen : fs.length ≠ cols.length) :
    (∀ n, n ∈ Echemdb.schemaFieldNames
          (Echemdb.Loader.mk Echemdb.LoaderKind.base cols rows (some fs))
        ↔ n ∈ Echemdb.tableColumnNames
          (Echemdb.Loader.mk Echemdb.LoaderKind.base cols rows (some fs)))
  ∧ (cols.Nodup → (fs.map Echemdb.nameOrEmpty).Nodup →
      (Echemdb.schemaFieldNames
          (Echemdb.Loader.mk Echemdb.LoaderKind.base cols rows (some fs))).length
        = cols.length) := by
  constructor
  · intro n
    rw [Echemdb.schemaFieldNames,
      Echemdb.loaderFields_some_ne_nil Echemdb.LoaderKind.base cols rows fs hne]
    exact Echemdb.reconcile_names_memEq cols fs n
  · intro hcols hfs
    rw [Echemdb.schemaFieldNames,
      Echemdb.loaderFields_some_ne_nil Echemdb.LoaderKind.base cols rows fs hne,
      List.length_map]
    exact Echemdb.reconcile_length cols fs hcols hfs

/-- Witness for C5 (amended) at columns [t, E, j] and the two-descriptor
user list [E, x]. -/
theorem c5_length_mismatch_reconciled_witness :
    (∀ n, n ∈ Echemdb.schemaFieldNames
          (Echemdb.Loader.mk Echemdb.LoaderKind.base ["t", "E", "j"] []
            (some [{ name := some ("E"), unit := some ("V") },
                   { name := some ("x") }]))
        ↔ n ∈ Echemdb.tableColumnNames
          (Echemdb.Loader.mk Echemdb.LoaderKind.base ["t", "E", "j"] []
            (some [{ name := some ("E"), unit := some ("V") },
                   { name := some ("x") }])))
  ∧ ((["t", "E", "j"] : List String).Nodup →
      (([{ name := some ("E"), unit := some ("V") },
          { name := some ("x") }] : List Echemdb.FieldDesc).map
          Echemdb.nameOrEmpty).Nodup →
      (Echemdb.schemaFieldNames
          (Echemdb.Loader.mk Echemdb.LoaderKind.base ["t", "E", "j"] []
            (some [{ name := some ("E"), unit := some ("V") },
                   { name := some ("x") }]))).length
        = (["t", "E", "j"] : List String).length) :=
  c5_length_mismatch_reconciled ["t", "E", "j"] []
    [{ name := some ("E"), unit := some ("V") }, { name := some ("x") }]
    (by decide) (by decide)

/-- C6 counterexample: for the EC-Lab loader with user fields covering only
"mode", the synthesized descriptor for the column "time/s" is the
auto-generated placeholder produced by `CSVloader.create_field`, even
though the biologic registry carries a full entry for "time/s": the
registry is not consulted in the user-fields reconciliation path. -/
theorem c6_counterexample :
    Echemdb.loaderFields (Echemdb.Loader.mk Echemdb.LoaderKind.eclab
        ["mode", "time/s", "Ewe/V", "<I>/mA", "control/V"] []
        (some [{ name := some ("mode") }]))
      = [{ name := some ("mode") },
         Echemdb.create_field ("time/s"), Echemdb.create_field ("Ewe/V"),
         Echemdb.create_field ("<I>/mA"), Echemdb.create_field ("control/V")]
  ∧ Echemdb.biologic_fields.find? (fun f => decide (f.name = some ("time/s")))
      = some { name := some ("time/s"), unit := some ("s"),
               dimension := some ("t"), description := some ("relative time") }
  ∧ Echemdb.create_field ("time/s")
      ≠ { name := some ("time/s"), unit := some ("s"),
          dimension := some ("t"), description := some ("relative time") } := by
  exact ⟨by decide, by decide, by decide⟩

/-- C6 (amended): in the user-supplied-fields path of every loader variant
(base and EC-Lab alike), each produced descriptor is either one of the
user descriptors or the auto-generated placeholder `create_field c` for
some column `c`; the registry is never consulted there.  Without user
fields the loader returns `create_fields` unchanged, which is where the
EC-Lab registry is used. -/
theorem c6_placeholder_synthesis (k : Echemdb.LoaderKind) (cols : List String)
    (rows : List (List String)) (fs : List Echemdb.FieldDesc) (hne : fs ≠ []) :
    (∀ f ∈ Echemdb.loaderFields (Echemdb.Loader.mk k cols rows (some fs)),
        f ∈ fs ∨ ∃ c, c ∈ cols ∧ f = Echemdb.create_field c)
  ∧ Echemdb.loaderFields (Echemdb.Loader.mk k cols rows none)
      = Echemdb.loaderCreateFields (Echemdb.Loader.mk k cols rows none) := by
  constructor
  · intro f hf
    rw [Echemdb.loaderFields_some_ne_nil k cols rows fs hne] at hf
    rcases Echemdb.addMissing_elem cols _ f hf with h | ⟨c, hc, he⟩
    · left
      have h1 : f ∈ Echemdb.dropNamelessPy fs 0 :=
        (Echemdb.removeObsolete_sublist cols _ _).subset h
      exact (Echemdb.dropNamelessPy_sublist fs 0).subset h1
    · exact Or.inr ⟨c, hc, he⟩
  · rfl

/-- Witness for C6 (amended) at the EC-Lab loader with columns
[mode, time/s] and the single user descriptor named mode. -/
theorem c6_placeholder_synthesis_witness :
    (∀ f ∈ Echemdb.loaderFields (Echemdb.Loader.mk Echemdb.LoaderKind.eclab
          ["mode", "time/s"] [] (some [{ name := some ("mode") }])),
        f ∈ ([{ name := some ("mode") }] : List Echemdb.FieldDesc)
          ∨ ∃ c, c ∈ (["mode", "time/s"] : List String)
              ∧ f = Echemdb.create_field c)
  ∧ Echemdb.loaderFields (Echemdb.Loader.mk Echemdb.LoaderKind.eclab
        ["mode", "time/s"] [] none)
      = Echemdb.loaderCreateFields (Echemdb.Loader.mk Echemdb.LoaderKind.eclab
        ["mode", "time/s"] [] none) :=
  c6_placeholder_synthesis Echemdb.LoaderKind.eclab ["mode", "time/s"] []
    [{ name := some ("mode") }] (by decide)

/-- C4: on the Scenario D loader the shipped `ECLabConverter` (which
extends the `ECConverter` of converter.py, a class that never consults
`name_conversion`) raises `KeyError` for the missing time axis instead of
returning the renamed columns; the renaming pipeline of ecconverter.py
cited by the claim (and by the class's own doctest) produces exactly the
claimed columns t, E, I for the schema and the table.  (The table values
are relabelled positionally: `_df` renames the loader's file-ordered
columns with the registry-ordered schema names, so the E column carries
the <I>/mA data, as the doctest of eclabconverter.py itself shows.) -/
theorem c4_eclab_converter :
    Echemdb.legacy_column_names Echemdb.scenarioDLoader
        = Except.error (Echemdb.PyErr.keyErrorAxis ("time"))
  ∧ Echemdb.ec_column_names Echemdb.eclab_name_conversion Echemdb.scenarioDLoader
        = Except.ok ["t", "E", "I"]
  ∧ Echemdb.ec_schema Echemdb.eclab_name_conversion Echemdb.scenarioDLoader
        = Except.ok
          [{ name := some ("t"), unit := some ("s"), dimension := some ("t"),
             description := some ("relative time") },
           { name := some ("E"), unit := some ("V"), dimension := some ("E"),
             description := some ("working electrode potential") },
           { name := some ("I"), unit := some ("mA"), dimension := some ("I"),
             description := some ("working electrode current") }]
  ∧ Echemdb.ec_df Echemdb.eclab_name_conversion Echemdb.scenarioDLoader
        = Except.ok (Echemdb.Df.mk ["t", "E", "I"]
            [["0", "0", "0"], ["1", "5", "1"]]) := by
  exact ⟨by decide, by decide, by decide, by decide⟩

/-- C7: whenever the first line carrying the pattern `Nb header lines : N`
has integer value N, `header_lines` is N - 1; in particular on the
Scenario C file (`Nb header lines : 6`, comma decimals) `header_lines` is
5 and the detected decimal separator is ','. -/
theorem c7_header_lines (pre post : List String) (line s : String) (n : Int)
    (hpre : ∀ l ∈ pre, Echemdb.findNbHeader l = none)
    (hline : Echemdb.findNbHeader line = some s)
    (hint : Echemdb.pyInt s = Except.ok n) :
    Echemdb.headerLinesFromLines (pre ++ line :: post) = Except.ok (n - 1)
  ∧ Echemdb.eclabHeaderLinesE Echemdb.scenarioCFile = Except.ok 5
  ∧ Echemdb.eclabDecimalE Echemdb.scenarioCFile = Except.ok "," := by
  refine ⟨?_, by decide, by decide⟩
  unfold Echemdb.headerLinesFromLines
  rw [List.filterMap_append, List.filterMap_eq_nil_iff.mpr hpre,
    List.filterMap_cons_some hline, List.nil_append]
  simp [hint, bind, Except.bind]

/-- Witness for C7 at the Scenario C header lines themselves. -/
theorem c7_header_lines_witness :
    Echemdb.headerLinesFromLines
        (["EC-Lab ASCII FILE\n"] ++ "Nb header lines : 6\n" :: ["\n"])
      = Except.ok ((6 : Int) - 1)
  ∧ Echemdb.eclabHeaderLinesE Echemdb.scenarioCFile = Except.ok 5
  ∧ Echemdb.eclabDecimalE Echemdb.scenarioCFile = Except.ok "," :=
  c7_header_lines ["EC-Lab ASCII FILE\n"] ["\n"] "Nb header lines : 6\n" "6" 6
    (by decide) (by decide) (by decide)

/-- C8 counterexample: on a file with no `Nb header lines` marker the
header-line determination raises Python's IndexError (from `matches[0]` on
an empty list), which is not the structured ParseError kind the
specification names. -/
theorem c8_counterexample :
    Echemdb.eclabHeaderLinesE "a,b\n0,0\n1,1"
        = Except.error Echemdb.PyErr.indexError
  ∧ Echemdb.PyErr.indexError ≠ Echemdb.PyErr.parseError := by
  exact ⟨by decide, by decide⟩

/-- C8 (amended): for every file none of whose lines matches the
`Nb header lines : N` pattern, `header_lines` fails with IndexError (an
unstructured error from indexing the empty match list), not with a
structured parse failure. -/
theorem c8_missing_pattern (lines : List String)
    (h : ∀ l ∈ lines, Echemdb.findNbHeader l = none) :
    Echemdb.headerLinesFromLines lines
      = Except.error Echemdb.PyErr.indexError := by
  unfold Echemdb.headerLinesFromLines
  rw [List.filterMap_eq_nil_iff.mpr h]

/-- Witness for C8 (amended) at a plain CSV file's lines. -/
theorem c8_missing_pattern_witness :
    Echemdb.headerLinesFromLines ["a,b\n", "0,0\n", "1,1"]
      = Except.error Echemdb.PyErr.indexError :=
  c8_missing_pattern ["a,b\n", "0,0\n", "1,1"] (by decide)

/-- C9: the only in-place mutation in the converter pipeline — the rename
loop of `ECConverter._schema` — writes exclusively into the `Field`
objects freshly constructed by that very schema access (frictionless
copies descriptors at `Field` construction), so every pre-existing heap
cell, in particular anything reachable from the loader, is left intact
(the old heap is a prefix of the new one, for both of two successive
evaluations), and both evaluations read back the same schema value
`ec_schema_fields_renamed conv l`; the derived outputs `ec_df`,
`ec_schema` and `ec_column_names` are functions of that value and of the
unchanged loader, so re-evaluating them yields structurally equal
results. -/
theorem c9_convert_idempotent_no_mutation (conv : List (String × String))
    (l : Echemdb.Loader) (h : Echemdb.Heap) :
    ((Echemdb.ecUnderscoreSchemaHeap conv l h).1).take h.length = h
  ∧ ((Echemdb.ecUnderscoreSchemaHeap conv l
        (Echemdb.ecUnderscoreSchemaHeap conv l h).1).1).take
      ((Echemdb.ecUnderscoreSchemaHeap conv l h).1).length
      = (Echemdb.ecUnderscoreSchemaHeap conv l h).1
  ∧ Echemdb.readBack (Echemdb.ecUnderscoreSchemaHeap conv l h)
      = Echemdb.ec_schema_fields_renamed conv l
  ∧ Echemdb.readBack (Echemdb.ecUnderscoreSchemaHeap conv l
        (Echemdb.ecUnderscoreSchemaHeap conv l h).1)
      = Echemdb.ec_schema_fields_renamed conv l := by
  have hrb : ∀ h0 : Echemdb.Heap,
      Echemdb.readBack (Echemdb.ecUnderscoreSchemaHeap conv l h0)
        = Echemdb.ec_schema_fields_renamed conv l := by
    intro h0
    rw [Echemdb.ecUnderscoreSchemaHeap_eq]
    unfold Echemdb.readBack
    simp only []
    rw [show (Echemdb.loaderFields l).length
        = (Echemdb.ec_schema_fields_renamed conv l).length
      from (Echemdb.ec_schema_fields_renamed_length conv l).symm]
    exact Echemdb.map_heapGet_blockAddrs
      (Echemdb.ec_schema_fields_renamed conv l) h0
  have htake : ∀ h0 : Echemdb.Heap,
      ((Echemdb.ecUnderscoreSchemaHeap conv l h0).1).take h0.length = h0 := by
    intro h0
    rw [Echemdb.ecUnderscoreSchemaHeap_eq]
    exact List.take_left h0 _
  exact ⟨htake h, htake _, hrb h, hrb _⟩
